import Mathlib

/-!
Verification of the PDF utility scripts (collision-safe mover, batch movers,
gallery manifest builder).

The Python sources are shallowly embedded as follows.

* A directory is a finite list of files, each a pair `(name, content)` where
  `content : ℕ` is an abstract content identifier; real directories list each
  name once, which appears as an explicit `Nodup` hypothesis where needed.
  Subdirectory entries are irrelevant to the movers (every scan filters with
  `is_file`), so mover directories hold files only; for the manifest builder,
  where non-recursiveness matters, directory entries are modelled by `Entry`
  which includes subdirectories.
* `str.lower()` is modelled character-wise with `Char.toLower` (ASCII case
  folding, which is how all names handled by these scripts behave).
* Python string comparison (used by `sorted(..., key=str.lower)`) is
  code-point lexicographic; `leChars` below is that order on `List Char`,
  written as a structurally recursive `Bool` so the kernel can evaluate it.
* `shutil.move` on one filesystem is a rename: the source entry disappears
  and the destination gains the target name with the same content.
* Exceptions raised by a single move (permissions, disappearing files, ...)
  are abstracted by an oracle `fails : String → Bool` consulted at the point
  where `shutil.move` is called inside a `try` block.
* CPython floats: `human_size` starts from `v = float(n)`, which rounds `n`
  to the nearest IEEE-754 double (53 significant bits, ties to even); that
  rounded value is the integer `floatN n` below.  Every subsequent `v /= 1024`
  is exact (it only shifts the exponent, and the loop never reaches the
  subnormal range), so after `k` divisions `v` is exactly `floatN n / 1024^k`;
  the embedding keeps `floatN n` and `k` and does the then-exact arithmetic
  in ℕ.  `f-string` `%.1f` formatting rounds the double's exact value half to
  even, which `fmt1` reproduces exactly.
-/

namespace Pdf

/-! ### Character and string primitives -/

/-- Code-point lexicographic `≤` on character lists: Python's string order. -/
def leChars : List Char → List Char → Bool
  | [], _ => true
  | _ :: _, [] => false
  | a :: as, b :: bs =>
    if a.toNat < b.toNat then true
    else if b.toNat < a.toNat then false
    else leChars as bs

/-- `needle` is a prefix of `hay` (Bool version, kernel-evaluable). -/
def isPrefB : List Char → List Char → Bool
  | [], _ => true
  | _ :: _, [] => false
  | a :: as, b :: bs => a == b && isPrefB as bs

/-- Python's `needle in hay` substring test. -/
def containsSub (needle : List Char) : List Char → Bool
  | [] => needle.isEmpty
  | c :: t => isPrefB needle (c :: t) || containsSub needle t

/-- Python `str.lower()` (character-wise ASCII case folding). -/
def strLower (s : String) : String := ⟨s.data.map Char.toLower⟩

/-- Little-endian decimal digits of `n`, with structural fuel so that the
kernel can evaluate it (`fuel ≥ n` suffices). -/
def toDecAux : ℕ → ℕ → List Char
  | 0, _ => []
  | _ + 1, 0 => []
  | fuel + 1, n + 1 => Nat.digitChar ((n + 1) % 10) :: toDecAux fuel ((n + 1) / 10)

/-- Python `str(n)` for a natural number: standard decimal rendering. -/
def decRepr (n : ℕ) : String :=
  if n = 0 then "0" else ⟨(toDecAux n n).reverse⟩

/-- Value of a little-endian digit-character list; left inverse of `toDecAux`. -/
def decodeLE : List Char → ℕ
  | [] => 0
  | c :: cs => (c.toNat - 48) + 10 * decodeLE cs

/-- Decodes the decimal string back to the number; left inverse of `decRepr`. -/
def decodeStr (s : String) : ℕ := decodeLE s.data.reverse

/-! ### pathlib suffix and stem

`pathlib.PurePath.suffix` is the substring of the name from its last dot,
provided that dot is neither the first nor the last character; otherwise it
is empty.  Working on the reversed character list, the characters strictly
after the last dot are `takeWhile (· != '.')` of the reversal, of length `k`;
the dot exists and is at neither end iff `1 ≤ k ∧ k + 2 ≤ length`. -/

def pathSuffix (name : String) : String :=
  if 1 ≤ (name.data.reverse.takeWhile (fun c => c != '.')).length ∧
      (name.data.reverse.takeWhile (fun c => c != '.')).length + 2 ≤ name.data.reverse.length
  then ⟨'.' :: (name.data.reverse.takeWhile (fun c => c != '.')).reverse⟩
  else ""

/-- `pathlib.PurePath.stem`: the name with its suffix removed. -/
def pathStem (name : String) : String :=
  ⟨name.data.take (name.data.length - (pathSuffix name).data.length)⟩

/-! ### Collision-safe move (`safe_move` in both mover scripts)

```python
target = dest_dir / base
i = 1
while target.exists():
    target = dest_dir / f"{name} ({i}){ext}"
    i += 1
shutil.move(str(src), str(target))
return target
```
-/

/-- The disambiguated candidate name `stem ++ " (" ++ str i ++ ")" ++ ext`. -/
def candidate (stem ext : String) (i : ℕ) : String :=
  stem ++ " (" ++ decRepr i ++ ")" ++ ext

/-- The `while target.exists()` loop, with structural fuel.  `moveLoop dn s e i f`
is the name the loop settles on starting from counter `i`, provided a free
name occurs within `f` further candidates (which `exists_fresh_candidate`
guarantees for `f = dn.length + 1`). -/
def moveLoop (destNames : List String) (stem ext : String) : ℕ → ℕ → String
  | i, 0 => candidate stem ext i
  | i, fuel + 1 =>
    if candidate stem ext i ∈ destNames then moveLoop destNames stem ext (i + 1) fuel
    else candidate stem ext i

/-- The destination name `safe_move` uses: the base name if free, otherwise
the first free numbered candidate. -/
def findTarget (destNames : List String) (base stem ext : String) : String :=
  if base ∈ destNames then moveLoop destNames stem ext 1 (destNames.length + 1)
  else base

/-- `safe_move src srcDir destDir = (returned target name, new source
directory, new destination directory)`.  The move relocates the entry: the
source loses the name, the destination gains the target with the same
content. -/
def safe_move (src : String × ℕ) (srcDir destDir : List (String × ℕ)) :
    String × List (String × ℕ) × List (String × ℕ) :=
  let base := src.1
  let target := findTarget (destDir.map Prod.fst) base (pathStem base) (pathSuffix base)
  (target, srcDir.filter (fun e => e.1 != base), destDir ++ [(target, src.2)])

/-! ### `human_size` (pdf_builder.py)

```python
def human_size(n: int) -> str:
    v = float(n)
    for u in ["B", "KB", "MB", "GB", "TB"]:
        if v < 1024 or u == "TB":
            return f"{int(v)} {u}" if u == "B" else f"{v:.1f} {u}"
        v /= 1024
    return f"{n} B"
```

`v = float(n)` rounds the integer `n` to the nearest IEEE-754 double —
53 significant bits, ties to even — whose value is the integer `floatN n`
below.  Each later `v /= 1024` is exact (the mantissa is unchanged, only the
exponent drops by 10, and the loop's values never come near the subnormal
range), so after `k` divisions `v` is exactly `floatN n / 1024 ^ k`, and
the comparison `v < 1024` is exactly `floatN n < 1024 ^ (k + 1)`.  The
embedding carries `floatN n` and `k` and computes the exact value in ℕ. -/

/-- Number of binary digits of `n`, with structural fuel (`fuel ≥ n`
suffices); `nbits 0 = 0` and `2 ^ (nbits n - 1) ≤ n < 2 ^ nbits n` for
`n ≥ 1`. -/
def bitsAux : ℕ → ℕ → ℕ
  | 0, _ => 0
  | _ + 1, 0 => 0
  | fuel + 1, n + 1 => bitsAux fuel ((n + 1) / 2) + 1

def nbits (n : ℕ) : ℕ := bitsAux n n

/-- The exact value of the IEEE-754 double `float(n)`: integers below `2^53`
are exact; a larger `n` keeps its top 53 bits, rounding the cut-off tail to
nearest with ties to even.  (All doubles produced this way are integers, so
the model stays in ℕ.) -/
def floatN (n : ℕ) : ℕ :=
  if n < 2 ^ 53 then n
  else if 2 * (n % 2 ^ (nbits n - 53)) < 2 ^ (nbits n - 53) then
    n / 2 ^ (nbits n - 53) * 2 ^ (nbits n - 53)
  else if 2 ^ (nbits n - 53) < 2 * (n % 2 ^ (nbits n - 53)) then
    (n / 2 ^ (nbits n - 53) + 1) * 2 ^ (nbits n - 53)
  else if n / 2 ^ (nbits n - 53) % 2 = 0 then
    n / 2 ^ (nbits n - 53) * 2 ^ (nbits n - 53)
  else (n / 2 ^ (nbits n - 53) + 1) * 2 ^ (nbits n - 53)

/-- The value `nf / 1024 ^ k` printed to one decimal place with ties rounded
to even, which is what `f"{v:.1f}"` does on the double whose exact value is
`nf / 1024 ^ k`. -/
def fmt1 (nf k : ℕ) : String :=
  let dnm := 1024 ^ k
  let q := 10 * nf / dnm
  let r := 10 * nf % dnm
  let d := if 2 * r < dnm then q
           else if dnm < 2 * r then q + 1
           else if q % 2 = 0 then q else q + 1
  decRepr (d / 10) ++ "." ++ decRepr (d % 10)

/-- The `for u in [...]` loop of `human_size`: `nf` is the exact value of
the double `float(n)`, the running value is `nf / 1024 ^ k`, and the
trailing `return f"{n} B"` (dead code in Python, since `"TB"` always
returns) is the `[]` case, formatting the original integer `n`.  `int(v)`
truncates, which on the non-negative `v = nf / 1024 ^ k` is `nf / 1024 ^ k`
in ℕ. -/
def humanGo (n nf : ℕ) : ℕ → List String → String
  | _, [] => decRepr n ++ " B"
  | k, u :: us =>
    if nf < 1024 ^ (k + 1) ∨ u = "TB" then
      (if u = "B" then decRepr (nf / 1024 ^ k) else fmt1 nf k) ++ " " ++ u
    else humanGo n nf (k + 1) us

/-- `human_size` from pdf_builder.py. -/
def human_size (n : ℕ) : String :=
  humanGo n (floatN n) 0 ["B", "KB", "MB", "GB", "TB"]

def leChars_total : ∀ as bs, leChars as bs = true ∨ leChars bs as = true
  | [], _ => Or.inl rfl
  | _ :: _, [] => Or.inr rfl
  | a :: as, b :: bs => by
    by_cases h1 : a.toNat < b.toNat
    · left; simp [leChars, h1]
    · by_cases h2 : b.toNat < a.toNat
      · right; simp [leChars, h2]
      · rcases leChars_total as bs with h | h
        · left; simp [leChars, h1, h2, h]
        · right; simp [leChars, h1, h2, h]

def leChars_trans : ∀ as bs cs, leChars as bs = true → leChars bs cs = true →
    leChars as cs = true
  | [], _, _ => by intro _ _; rfl
  | _ :: _, [], _ => by intro h _; simp [leChars] at h
  | _ :: _, _ :: _, [] => by intro _ h; simp [leChars] at h
  | a :: as, b :: bs, c :: cs => by
    intro h1 h2
    simp only [leChars] at h1 h2 ⊢
    split_ifs at h1 h2 ⊢ <;>
      first
        | rfl
        | omega
        | (exact leChars_trans as bs cs h1 h2)

/-! ### Gallery manifest builder (pdf_builder.py) -/

/-- One immediate entry of the scanned directory: a regular file with its
`stat` metadata, or a subdirectory with whatever it contains (never
descended into). -/
inductive Entry where
  | file (name : String) (size : ℕ) (mtime : ℤ)
  | dir (name : String) (children : List (String × ℕ × ℤ))
deriving DecidableEq

def entryName : Entry → String
  | .file nm _ _ => nm
  | .dir nm _ => nm

def entrySize : Entry → ℕ
  | .file _ sz _ => sz
  | .dir _ _ => 0

def entryMtime : Entry → ℤ
  | .file _ _ mt => mt
  | .dir _ _ => 0

/-- The filter of `gather_pdfs`: `p.is_file() and p.suffix.lower() == ".pdf"`. -/
def entryIsPdf : Entry → Bool
  | .file nm _ _ => strLower (pathSuffix nm) == ".pdf"
  | .dir _ _ => false

/-- Sort key order `p.name.lower()` on directory entries. -/
def entryLe (a b : Entry) : Prop :=
  leChars (strLower (entryName a)).data (strLower (entryName b)).data = true

instance : DecidableRel entryLe := fun _ _ => inferInstanceAs (Decidable (_ = true))

instance : IsTotal Entry entryLe := ⟨fun _ _ => leChars_total _ _⟩

instance : IsTrans Entry entryLe := ⟨fun _ _ _ => leChars_trans _ _ _⟩

/-- `gather_pdfs`: the immediate children that are regular files with suffix
`.pdf` (case-insensitively), sorted by lowercased name.  `sorted` is a stable
sort by a total preorder key, which is exactly what a stable insertion sort
computes. -/
def gather_pdfs (entries : List Entry) : List Entry :=
  List.insertionSort entryLe (entries.filter entryIsPdf)

/-- `html.escape` (with `quote=True`), character-wise. -/
def escChar (c : Char) : List Char :=
  if c = '&' then "&amp;".data
  else if c = '<' then "&lt;".data
  else if c = '>' then "&gt;".data
  else if c = Char.ofNat 34 then "&quot;".data
  else if c = Char.ofNat 39 then "&#x27;".data
  else [c]

def htmlEscape (s : String) : String :=
  ⟨s.data.foldr (fun c acc => escChar c ++ acc) []⟩

/-- UTF-8 bytes of a code point (as naturals below 256). -/
def utf8Bytes (c : Char) : List ℕ :=
  let n := c.toNat
  if n < 128 then [n]
  else if n < 2048 then [192 + n / 64, 128 + n % 64]
  else if n < 65536 then [224 + n / 4096, 128 + n / 64 % 64, 128 + n % 64]
  else [240 + n / 262144, 128 + n / 4096 % 64, 128 + n / 64 % 64, 128 + n % 64]

/-- Uppercase hexadecimal digit, as `urllib.parse.quote` emits. -/
def hexDigitU (n : ℕ) : Char :=
  if n < 10 then Nat.digitChar n else Char.ofNat (55 + n)

/-- Characters `urllib.parse.quote` leaves as-is: ASCII alphanumerics,
`_.-~`, and the default safe character `/`. -/
def quoteSafe (c : Char) : Bool :=
  c.isAlpha || c.isDigit || c = '_' || c = '.' || c = '-' || c = '~' || c = '/'

def quoteChar (c : Char) : List Char :=
  if quoteSafe c then [c]
  else (utf8Bytes c).foldr (fun b acc => '%' :: hexDigitU (b / 16) :: hexDigitU (b % 16) :: acc) []

/-- `urllib.parse.quote` with the default safe set. -/
def quotePath (s : String) : String :=
  ⟨s.data.foldr (fun c acc => quoteChar c ++ acc) []⟩

/-- One row of the manifest, as assembled in `main` of pdf_builder.py.
`date_h` is produced by `datetime.fromtimestamp(...).strftime(...)`, which
depends on the machine's timezone database, not on the directory; it enters
the model as the opaque `dateFmt` argument of `buildRows`. -/
structure Row where
  name : String
  name_l : String
  href : String
  size : ℕ
  size_h : String
  mtime : ℤ
  date_h : String
deriving DecidableEq

/-- The row-building loop of `main` in pdf_builder.py. -/
def buildRows (dateFmt : ℤ → String) (entries : List Entry) : List Row :=
  (gather_pdfs entries).map fun p =>
    { name := htmlEscape (entryName p)
      name_l := strLower (entryName p)
      href := quotePath (entryName p)
      size := entrySize p
      size_h := htmlEscape (human_size (entrySize p))
      mtime := entryMtime p
      date_h := dateFmt (entryMtime p) }

/-- Effect of `OUT.write_text(...)` on the scanned directory: the file
`index.html` (which lives inside the scanned folder) is replaced wholesale
with the freshly rendered artifact. -/
def writeArtifact (entries : List Entry) (sz : ℕ) (mt : ℤ) : List Entry :=
  entries.filter (fun e => entryName e != "index.html") ++ [Entry.file "index.html" sz mt]

/-! ### Batch mover (pdf_optimised_mover.py) -/

/-- `is_optimised_pdf`: a file whose lowercased name ends in `.pdf` and
contains the keyword `_optimised` (`KEYWORD.lower()` is `"_optimised"`
already).  Directory entries are excluded before this test in the model, so
`p.is_file()` is implicit. -/
def is_optimised_pdf (name : String) : Bool :=
  List.isSuffixOf ".pdf".data (strLower name).data &&
    containsSub "_optimised".data (strLower name).data

/-- Sort key order `p.name.lower()` on `(name, content)` files. -/
def pairLe (a b : String × ℕ) : Prop :=
  leChars (strLower a.1).data (strLower b.1).data = true

instance : DecidableRel pairLe := fun _ _ => inferInstanceAs (Decidable (_ = true))

instance : IsTotal (String × ℕ) pairLe := ⟨fun _ _ => leChars_total _ _⟩

instance : IsTrans (String × ℕ) pairLe := ⟨fun _ _ _ => leChars_trans _ _ _⟩

/-- The candidate list of `main`: source files passing `is_optimised_pdf`,
sorted by lowercased name. -/
def candidateList (srcFiles : List (String × ℕ)) : List (String × ℕ) :=
  List.insertionSort pairLe (srcFiles.filter (fun e => is_optimised_pdf e.1))

/-- One line of the per-file trace: `MOVED`, a silent skip counted in
`skipped`, or an `ERROR`. -/
inductive Action where
  | movedA (src tgt : String)
  | skippedA (name : String)
  | erroredA (name : String)
deriving DecidableEq

def isSkipA : Action → Bool
  | .skippedA _ => true
  | _ => false

def isMovedA : Action → Bool
  | .movedA _ _ => true
  | _ => false

def isErrA : Action → Bool
  | .erroredA _ => true
  | _ => false

/-- The mutable state of `main`'s loop: the two directories, the
`dest_names` lowercase skip set, the three counters and the printed trace. -/
structure MoverSt where
  src : List (String × ℕ)
  dest : List (String × ℕ)
  destNames : List String
  moved : ℕ
  skipped : ℕ
  errors : ℕ
  log : List Action
deriving DecidableEq

/-- One iteration of the `for p in candidates` loop:

```python
try:
    if p.name.lower() in dest_names:
        skipped += 1
        continue
    dst = safe_move(p, DEST_DIR)
    moved += 1
    dest_names.add(dst.name.lower())
except Exception as e:
    errors += 1
```

`fails` tells whether `shutil.move` raises for this file. -/
def procOne (fails : String → Bool) (st : MoverSt) (p : String × ℕ) : MoverSt :=
  if strLower p.1 ∈ st.destNames then
    { st with skipped := st.skipped + 1, log := st.log ++ [Action.skippedA p.1] }
  else if fails p.1 then
    { st with errors := st.errors + 1, log := st.log ++ [Action.erroredA p.1] }
  else
    let r := safe_move p st.src st.dest
    { src := r.2.1, dest := r.2.2, destNames := st.destNames ++ [strLower r.1],
      moved := st.moved + 1, skipped := st.skipped, errors := st.errors,
      log := st.log ++ [Action.movedA p.1 r.1] }

/-- State at the top of the loop: `dest_names` holds the lowercased names of
the files already in the destination. -/
def initSt (srcFiles destFiles : List (String × ℕ)) : MoverSt :=
  { src := srcFiles, dest := destFiles,
    destNames := destFiles.map (fun e => strLower e.1),
    moved := 0, skipped := 0, errors := 0, log := [] }

/-- The whole batch run of `main` in pdf_optimised_mover.py. -/
def runMover (fails : String → Bool) (srcFiles destFiles : List (String × ℕ)) : MoverSt :=
  (candidateList srcFiles).foldl (procOne fails) (initSt srcFiles destFiles)

/-! ### Interactive mover (pdf_you_pick_mover.py) -/

/-- `os.path.splitext` extension for a bare file name: from the last dot,
provided some non-dot character precedes that dot (leading dots never start
an extension). -/
def splitextExt (name : String) : String :=
  let cs := name.data
  let rev := cs.reverse
  match rev.findIdx? (fun c => c == '.') with
  | none => ""
  | some k =>
    let i := cs.length - 1 - k
    if (cs.take i).any (fun c => c != '.') then ⟨cs.drop i⟩ else ""

def splitextRoot (name : String) : String :=
  ⟨name.data.take (name.data.length - (splitextExt name).data.length)⟩

/-- `safe_move` of pdf_you_pick_mover.py: identical loop, with the
`os.path.splitext` name split instead of pathlib's. -/
def safe_move_pick (src : String × ℕ) (srcDir destDir : List (String × ℕ)) :
    String × List (String × ℕ) × List (String × ℕ) :=
  let base := src.1
  let target :=
    findTarget (destDir.map Prod.fst) base (splitextRoot base) (splitextExt base)
  (target, srcDir.filter (fun e => e.1 != base), destDir ++ [(target, src.2)])

/-- State of `App.move_selected`: the directories, the `moved` counter and
the collected error messages (identified here by the failing file name). -/
structure PickSt where
  src : List (String × ℕ)
  dest : List (String × ℕ)
  moved : ℕ
  errList : List String
deriving DecidableEq

/-- One iteration of the `for f in selected` loop:

```python
try:
    if not os.path.exists(src_path):
        continue
    safe_move(src_path, DEST_DIR)
    moved += 1
except Exception as e:
    errors.append(f"{f}: {e}")
```
-/
def pickStep (fails : String → Bool) (st : PickSt) (f : String) : PickSt :=
  match st.src.find? (fun e => e.1 == f) with
  | none => st
  | some e =>
    if fails f then { st with errList := st.errList ++ [f] }
    else
      let r := safe_move_pick e st.src st.dest
      { src := r.2.1, dest := r.2.2, moved := st.moved + 1, errList := st.errList }

/-- The batch part of `App.move_selected` (after the confirmation dialog). -/
def moveSelected (fails : String → Bool) (selected : List String)
    (srcFiles destFiles : List (String × ℕ)) : PickSt :=
  selected.foldl (pickStep fails) ⟨srcFiles, destFiles, 0, []⟩

/-! ### Helper lemmas about decimal rendering, the target search, and sizes -/

theorem digitChar_toNat_sub (d : ℕ) (h : d < 10) : (Nat.digitChar d).toNat - 48 = d := by
  revert d h; decide

theorem decodeLE_toDecAux : ∀ fuel n, n ≤ fuel → decodeLE (toDecAux fuel n) = n := by
  intro fuel
  induction fuel with
  | zero => intro n h; interval_cases n; rfl
  | succ fuel ih =>
    intro n h
    match n with
    | 0 => rfl
    | m + 1 =>
      have hdiv : (m + 1) / 10 ≤ fuel := by
        have := Nat.div_lt_self (Nat.succ_pos m) (by norm_num : 1 < 10)
        omega
      simp only [toDecAux, decodeLE, ih _ hdiv,
        digitChar_toNat_sub _ (Nat.mod_lt _ (by norm_num))]
      omega

theorem decodeStr_decRepr (n : ℕ) : decodeStr (decRepr n) = n := by
  by_cases h : n = 0
  · subst h; rfl
  · simp only [decRepr, if_neg h, decodeStr, List.reverse_reverse]
    exact decodeLE_toDecAux n n le_rfl

theorem decRepr_injective : Function.Injective decRepr :=
  Function.LeftInverse.injective decodeStr_decRepr

theorem candidate_injective (stem ext : String) :
    Function.Injective (candidate stem ext) := by
  intro i j h
  apply decRepr_injective
  apply String.ext
  have hd := congrArg String.data h
  simp only [candidate, String.data_append] at hd
  have h1 := List.append_cancel_right hd
  have h2 := List.append_cancel_right h1
  exact List.append_cancel_left h2

theorem exists_fresh_candidate (destNames : List String) (stem ext : String) :
    ∃ j, j < destNames.length + 1 ∧ candidate stem ext (1 + j) ∉ destNames := by
  by_contra hcon
  push_neg at hcon
  have hinj : Function.Injective fun j : ℕ => candidate stem ext (1 + j) := by
    intro a b hab
    have := candidate_injective stem ext hab
    omega
  have hsub : (Finset.range (destNames.length + 1)).image
      (fun j => candidate stem ext (1 + j)) ⊆ destNames.toFinset := by
    intro x hx
    rcases Finset.mem_image.mp hx with ⟨j, hj, rfl⟩
    exact List.mem_toFinset.mpr (hcon j (Finset.mem_range.mp hj))
  have hcard := Finset.card_le_card hsub
  rw [Finset.card_image_of_injective _ hinj, Finset.card_range] at hcard
  have := List.toFinset_card_le (l := destNames)
  omega

theorem moveLoop_spec (destNames : List String) (stem ext : String) :
    ∀ fuel i, (∃ j, j < fuel ∧ candidate stem ext (i + j) ∉ destNames) →
      ∃ j, j < fuel ∧ moveLoop destNames stem ext i fuel = candidate stem ext (i + j) ∧
        candidate stem ext (i + j) ∉ destNames ∧
        ∀ m, m < j → candidate stem ext (i + m) ∈ destNames := by
  intro fuel
  induction fuel with
  | zero => intro i ⟨j, hj, _⟩; omega
  | succ fuel ih =>
    intro i ⟨j, hj, hfree⟩
    by_cases hi : candidate stem ext i ∈ destNames
    · have hj0 : j ≠ 0 := by rintro rfl; simp at hfree; exact hfree hi
      have hex : ∃ j', j' < fuel ∧ candidate stem ext (i + 1 + j') ∉ destNames := by
        refine ⟨j - 1, by omega, ?_⟩
        have : i + 1 + (j - 1) = i + j := by omega
        rw [this]; exact hfree
      rcases ih (i + 1) hex with ⟨j', hj', heq, hfree', hall⟩
      refine ⟨j' + 1, by omega, ?_, ?_, ?_⟩
      · simp only [moveLoop, if_pos hi]
        rw [heq]; congr 1; omega
      · have : i + (j' + 1) = i + 1 + j' := by omega
        rw [this]; exact hfree'
      · intro m hm
        match m with
        | 0 => simpa using hi
        | m' + 1 =>
          have : i + (m' + 1) = i + 1 + m' := by omega
          rw [this]; exact hall m' (by omega)
    · exact ⟨0, by omega, by simp [moveLoop, hi], by simpa using hi, by omega⟩

theorem findTarget_of_not_mem {destNames : List String} {base : String}
    (stem ext : String) (h : base ∉ destNames) :
    findTarget destNames base stem ext = base := by
  simp [findTarget, h]

theorem findTarget_of_mem {destNames : List String} {base : String}
    (stem ext : String) (h : base ∈ destNames) :
    ∃ n, 1 ≤ n ∧ findTarget destNames base stem ext = candidate stem ext n ∧
      candidate stem ext n ∉ destNames ∧
      ∀ m, 1 ≤ m → m < n → candidate stem ext m ∈ destNames := by
  rcases moveLoop_spec destNames stem ext (destNames.length + 1) 1
      (exists_fresh_candidate destNames stem ext) with ⟨j, _, heq, hfree, hall⟩
  refine ⟨1 + j, by omega, ?_, hfree, ?_⟩
  · simp only [findTarget, if_pos h]; exact heq
  · intro m h1 hm
    have : m = 1 + (m - 1) := by omega
    rw [this]; exact hall (m - 1) (by omega)

theorem findTarget_not_mem (destNames : List String) (base stem ext : String) :
    findTarget destNames base stem ext ∉ destNames := by
  by_cases h : base ∈ destNames
  · rcases findTarget_of_mem stem ext h with ⟨n, _, heq, hfree, _⟩
    rw [heq]; exact hfree
  · rw [findTarget_of_not_mem stem ext h]; exact h

/-- Sanity check of the float model at a rounding tie: `float(2^93 + 2^40)`
rounds down to `2^93` (ties to even), so the program prints
`9007199254740992.0 TB`, not the `...93.0` that exact arithmetic would
give. -/
theorem human_size_float_rounding :
    human_size (2 ^ 93 + 2 ^ 40) = "9007199254740992.0 TB" := by decide

theorem procOne_skip (fails : String → Bool) (st : MoverSt) (p : String × ℕ)
    (h : strLower p.1 ∈ st.destNames) :
    procOne fails st p =
      { st with skipped := st.skipped + 1, log := st.log ++ [Action.skippedA p.1] } := by
  simp [procOne, h]

theorem procOne_err (fails : String → Bool) (st : MoverSt) (p : String × ℕ)
    (h1 : strLower p.1 ∉ st.destNames) (h2 : fails p.1 = true) :
    procOne fails st p =
      { st with errors := st.errors + 1, log := st.log ++ [Action.erroredA p.1] } := by
  simp [procOne, h1, h2]

theorem procOne_move (fails : String → Bool) (st : MoverSt) (p : String × ℕ)
    (h1 : strLower p.1 ∉ st.destNames) (h2 : fails p.1 = false) :
    procOne fails st p =
      { src := (safe_move p st.src st.dest).2.1,
        dest := (safe_move p st.src st.dest).2.2,
        destNames := st.destNames ++ [strLower (safe_move p st.src st.dest).1],
        moved := st.moved + 1, skipped := st.skipped, errors := st.errors,
        log := st.log ++ [Action.movedA p.1 (safe_move p st.src st.dest).1] } := by
  simp [procOne, h1, h2]

theorem procOne_destNames_mono (fails : String → Bool) (st : MoverSt) (p : String × ℕ)
    (x : String) (hx : x ∈ st.destNames) : x ∈ (procOne fails st p).destNames := by
  unfold procOne
  split_ifs <;> simp [hx]

theorem procOne_log_mono (fails : String → Bool) (st : MoverSt) (p : String × ℕ)
    (a : Action) (ha : a ∈ st.log) : a ∈ (procOne fails st p).log := by
  unfold procOne
  split_ifs <;> simp [ha]

theorem foldl_destNames_mono (fails : String → Bool) :
    ∀ (l : List (String × ℕ)) (st : MoverSt) (x : String), x ∈ st.destNames →
      x ∈ (l.foldl (procOne fails) st).destNames
  | [], _, _, hx => hx
  | p :: l, st, x, hx =>
    foldl_destNames_mono fails l (procOne fails st p) x
      (procOne_destNames_mono fails st p x hx)

theorem foldl_log_mono (fails : String → Bool) :
    ∀ (l : List (String × ℕ)) (st : MoverSt) (a : Action), a ∈ st.log →
      a ∈ (l.foldl (procOne fails) st).log
  | [], _, _, ha => ha
  | p :: l, st, a, ha =>
    foldl_log_mono fails l (procOne fails st p) a (procOne_log_mono fails st p a ha)

/-- Every `MOVED` line records a name whose lowercase form is in the skip
set; preserved by each loop iteration. -/
theorem procOne_moved_names (fails : String → Bool) (st : MoverSt) (p : String × ℕ)
    (h : ∀ a t, Action.movedA a t ∈ st.log → strLower t ∈ st.destNames) :
    ∀ a t, Action.movedA a t ∈ (procOne fails st p).log →
      strLower t ∈ (procOne fails st p).destNames := by
  intro a t hmem
  by_cases h1 : strLower p.1 ∈ st.destNames
  · rw [procOne_skip fails st p h1] at hmem ⊢
    simp only [List.mem_append, List.mem_singleton] at hmem
    rcases hmem with hm | hm
    · exact h a t hm
    · cases hm
  · by_cases h2 : fails p.1 = true
    · rw [procOne_err fails st p h1 h2] at hmem ⊢
      simp only [List.mem_append, List.mem_singleton] at hmem
      rcases hmem with hm | hm
      · exact h a t hm
      · cases hm
    · rw [procOne_move fails st p h1 (by simpa using h2)] at hmem ⊢
      simp only [List.mem_append, List.mem_singleton] at hmem ⊢
      rcases hmem with hm | hm
      · exact Or.inl (h a t hm)
      · cases hm
        simp

theorem foldl_moved_names (fails : String → Bool) :
    ∀ (l : List (String × ℕ)) (st : MoverSt),
      (∀ a t, Action.movedA a t ∈ st.log → strLower t ∈ st.destNames) →
      ∀ a t, Action.movedA a t ∈ (l.foldl (procOne fails) st).log →
        strLower t ∈ (l.foldl (procOne fails) st).destNames
  | [], _, h => h
  | p :: l, st, h =>
    foldl_moved_names fails l (procOne fails st p) (procOne_moved_names fails st p h)

theorem procOne_counts (fails : String → Bool) (st : MoverSt) (p : String × ℕ)
    (h : st.moved = st.log.countP isMovedA ∧ st.skipped = st.log.countP isSkipA ∧
      st.errors = st.log.countP isErrA) :
    (procOne fails st p).moved = (procOne fails st p).log.countP isMovedA ∧
    (procOne fails st p).skipped = (procOne fails st p).log.countP isSkipA ∧
    (procOne fails st p).errors = (procOne fails st p).log.countP isErrA := by
  obtain ⟨hm, hs, he⟩ := h
  by_cases h1 : strLower p.1 ∈ st.destNames
  · rw [procOne_skip fails st p h1]
    simp [List.countP_append, hm, hs, he, isMovedA, isSkipA, isErrA, List.countP_cons]
  · by_cases h2 : fails p.1 = true
    · rw [procOne_err fails st p h1 h2]
      simp [List.countP_append, hm, hs, he, isMovedA, isSkipA, isErrA, List.countP_cons]
    · rw [procOne_move fails st p h1 (by simpa using h2)]
      simp [List.countP_append, hm, hs, he, isMovedA, isSkipA, isErrA, List.countP_cons]

theorem foldl_counts (fails : String → Bool) :
    ∀ (l : List (String × ℕ)) (st : MoverSt),
      (st.moved = st.log.countP isMovedA ∧ st.skipped = st.log.countP isSkipA ∧
        st.errors = st.log.countP isErrA) →
      ((l.foldl (procOne fails) st).moved = (l.foldl (procOne fails) st).log.countP isMovedA ∧
        (l.foldl (procOne fails) st).skipped = (l.foldl (procOne fails) st).log.countP isSkipA ∧
        (l.foldl (procOne fails) st).errors = (l.foldl (procOne fails) st).log.countP isErrA)
  | [], _, h => h
  | p :: l, st, h => foldl_counts fails l (procOne fails st p) (procOne_counts fails st p h)

theorem procOne_log_len (fails : String → Bool) (st : MoverSt) (p : String × ℕ) :
    (procOne fails st p).log.length = st.log.length + 1 := by
  unfold procOne
  split_ifs <;> simp

theorem foldl_log_len (fails : String → Bool) :
    ∀ (l : List (String × ℕ)) (st : MoverSt),
      (l.foldl (procOne fails) st).log.length = st.log.length + l.length
  | [], _ => rfl
  | p :: l, st => by
    rw [List.foldl_cons, foldl_log_len fails l (procOne fails st p),
      procOne_log_len fails st p]
    simp [Nat.add_assoc, Nat.add_comm 1]

theorem mem_candidateList {p : String × ℕ} {srcFiles : List (String × ℕ)}
    (hmem : p ∈ srcFiles) (hopt : is_optimised_pdf p.1 = true) :
    p ∈ candidateList srcFiles :=
  (List.perm_insertionSort pairLe _).mem_iff.mpr
    (List.mem_filter.mpr ⟨hmem, hopt⟩)

/-- The three facts the skip theorems need, preserved along the whole batch:
the watched name stays in the skip set, the watched source file survives,
and no `MOVED` line ever names it. -/
theorem foldl_skipfile_inv (fails : String → Bool) (nm : String) (c : ℕ) :
    ∀ (l : List (String × ℕ)) (st : MoverSt),
      strLower nm ∈ st.destNames → (nm, c) ∈ st.src →
      (∀ t, Action.movedA nm t ∉ st.log) →
      (strLower nm ∈ (l.foldl (procOne fails) st).destNames ∧
        (nm, c) ∈ (l.foldl (procOne fails) st).src ∧
        ∀ t, Action.movedA nm t ∉ (l.foldl (procOne fails) st).log)
  | [], _, h1, h2, h3 => ⟨h1, h2, h3⟩
  | p :: l, st, h1, h2, h3 => by
    rw [List.foldl_cons]
    by_cases hq : strLower p.1 ∈ st.destNames
    · refine foldl_skipfile_inv fails nm c l _ ?_ ?_ ?_ <;> rw [procOne_skip fails st p hq]
      · exact h1
      · exact h2
      · intro t ht
        simp only [List.mem_append, List.mem_singleton] at ht
        rcases ht with ht | ht
        · exact h3 t ht
        · cases ht
    · by_cases hf : fails p.1 = true
      · refine foldl_skipfile_inv fails nm c l _ ?_ ?_ ?_ <;>
          rw [procOne_err fails st p hq hf]
        · exact h1
        · exact h2
        · intro t ht
          simp only [List.mem_append, List.mem_singleton] at ht
          rcases ht with ht | ht
          · exact h3 t ht
          · cases ht
      · have hne : p.1 ≠ nm := by
          intro he
          rw [he] at hq
          exact hq h1
        refine foldl_skipfile_inv fails nm c l _ ?_ ?_ ?_ <;>
          rw [procOne_move fails st p hq (by simpa using hf)]
        · simp [h1]
        · simp only [safe_move]
          exact List.mem_filter.mpr ⟨h2, by simpa using fun he => hne he.symm⟩
        · intro t ht
          simp only [List.mem_append, List.mem_singleton] at ht
          rcases ht with ht | ht
          · exact h3 t ht
          · cases ht
            exact hne rfl

/-! ### Helper lemmas about the interactive mover loop -/

theorem pickStep_src_sub (fails : String → Bool) (st : PickSt) (f : String) :
    ∀ x ∈ (pickStep fails st f).src, x ∈ st.src := by
  intro x hx
  unfold pickStep at hx
  cases hfind : st.src.find? (fun e => e.1 == f) with
  | none => rw [hfind] at hx; exact hx
  | some e =>
    rw [hfind] at hx
    dsimp only at hx
    by_cases hf : fails f = true
    · rw [if_pos hf] at hx; exact hx
    · rw [if_neg hf] at hx
      simp only [safe_move_pick] at hx
      exact (List.mem_filter.mp hx).1

theorem foldl_pick_src_sub (fails : String → Bool) :
    ∀ (l : List String) (st : PickSt) (x : String × ℕ),
      x ∈ (l.foldl (pickStep fails) st).src → x ∈ st.src
  | [], _, _, hx => hx
  | f :: l, st, x, hx =>
    pickStep_src_sub fails st f x
      (foldl_pick_src_sub fails l (pickStep fails st f) x hx)

theorem pickStep_noop (fails : String → Bool) (st : PickSt) (f : String)
    (h : ∀ e ∈ st.src, e.1 ≠ f) : pickStep fails st f = st := by
  have hfind : st.src.find? (fun e => e.1 == f) = none :=
    List.find?_eq_none.mpr fun x hx => by simpa using h x hx
  unfold pickStep
  rw [hfind]

/-! ### Helper lemmas about suffix detection and the manifest builder -/

theorem dropWhile_head_false (p : α → Bool) :
    ∀ (l : List α) (x : α) (xs : List α), l.dropWhile p = x :: xs → p x = false
  | [], x, xs => by simp [List.dropWhile]
  | a :: l, x, xs => by
    rw [List.dropWhile_cons]
    by_cases hpa : p a = true
    · rw [if_pos hpa]; exact dropWhile_head_false p l x xs
    · rw [if_neg hpa]
      intro h
      cases h
      simpa using hpa

/-- The filter actually implemented (`p.suffix.lower() == ".pdf"`) holds
exactly for names that end, case-insensitively, in `.pdf` with at least one
character before that dot.  A file named just `".pdf"` (any casing) fails
it even though its name does end in `.pdf`. -/
theorem pathSuffix_pdf_iff (nm : String) :
    (strLower (pathSuffix nm) == ".pdf") = true ↔
      ∃ l c₁ c₂ c₃, nm.data = l ++ ['.', c₁, c₂, c₃] ∧ l ≠ [] ∧
        Char.toLower c₁ = 'p' ∧ Char.toLower c₂ = 'd' ∧ Char.toLower c₃ = 'f' := by
  constructor
  · intro h
    rw [beq_iff_eq] at h
    by_cases hc : 1 ≤ (nm.data.reverse.takeWhile (fun c => c != '.')).length ∧
        (nm.data.reverse.takeWhile (fun c => c != '.')).length + 2 ≤ nm.data.reverse.length
    · simp only [pathSuffix, if_pos hc] at h
      have hdata := congrArg String.data h
      have hdot : Char.toLower '.' = '.' := by decide
      simp only [strLower, List.map_cons, hdot] at hdata
      have htail : List.map Char.toLower (nm.data.reverse.takeWhile (fun c => c != '.')).reverse
          = ['p', 'd', 'f'] := by
        injection hdata
      have hlen : (nm.data.reverse.takeWhile (fun c => c != '.')).length = 3 := by
        have := congrArg List.length htail
        simpa using this
      rcases htl : nm.data.reverse.takeWhile (fun c => c != '.') with _ | ⟨a, _ | ⟨b, _ | ⟨c, _ | ⟨d, t⟩⟩⟩⟩ <;>
        rw [htl] at hlen <;> simp at hlen
      rw [htl] at htail
      simp only [List.reverse_cons, List.reverse_nil, List.nil_append, List.cons_append,
        List.map_cons, List.map_nil] at htail
      have hlc : Char.toLower c = 'p' := by injection htail
      have htail2 := htail
      injection htail2 with _ htail3
      have hlb : Char.toLower b = 'd' := by injection htail3
      injection htail3 with _ htail4
      have hla : Char.toLower a = 'f' := by injection htail4
      have hsplit := (List.takeWhile_append_dropWhile (fun c => c != '.') nm.data.reverse).symm
      rw [htl] at hsplit
      rw [htl] at hc
      have hrestlen : 2 ≤ (nm.data.reverse.dropWhile (fun c => c != '.')).length := by
        have hlenrev := congrArg List.length hsplit
        rw [List.length_append] at hlenrev
        simp only [List.length_cons, List.length_nil] at hlenrev hc
        omega
      rcases hrest : nm.data.reverse.dropWhile (fun c => c != '.') with _ | ⟨r, rest⟩
      · rw [hrest] at hrestlen; simp at hrestlen
      · have hr : (r != '.') = false :=
          dropWhile_head_false (fun c => c != '.') nm.data.reverse r rest hrest
        rw [bne_eq_false_iff_eq] at hr
        subst hr
        rw [hrest] at hsplit hrestlen
        have hcs : nm.data = rest.reverse ++ ['.', c, b, a] := by
          have := congrArg List.reverse hsplit
          simpa using this
        refine ⟨rest.reverse, c, b, a, hcs, ?_, hlc, hlb, hla⟩
        intro hnil
        have : rest = [] := by simpa using congrArg List.reverse hnil
        rw [this] at hrestlen
        simp at hrestlen
    · simp only [pathSuffix, if_neg hc] at h
      exact absurd h (by decide)
  · rintro ⟨l, c₁, c₂, c₃, hdec, hl, h1, h2, h3⟩
    have hne1 : (c₁ != '.') = true := by
      rw [bne_iff_ne]; intro he; rw [he] at h1; exact absurd h1 (by decide)
    have hne2 : (c₂ != '.') = true := by
      rw [bne_iff_ne]; intro he; rw [he] at h2; exact absurd h2 (by decide)
    have hne3 : (c₃ != '.') = true := by
      rw [bne_iff_ne]; intro he; rw [he] at h3; exact absurd h3 (by decide)
    have hrev : nm.data.reverse = [c₃, c₂, c₁, '.'] ++ l.reverse := by
      rw [hdec]; simp
    have htl : nm.data.reverse.takeWhile (fun c => c != '.') = [c₃, c₂, c₁] := by
      rw [hrev]
      simp only [List.cons_append, List.takeWhile_cons, hne1, hne2, hne3]
      simp
    have hcond : 1 ≤ (nm.data.reverse.takeWhile (fun c => c != '.')).length ∧
        (nm.data.reverse.takeWhile (fun c => c != '.')).length + 2 ≤ nm.data.reverse.length := by
      rw [htl]
      refine ⟨by norm_num, ?_⟩
      rw [List.length_reverse, hdec, List.length_append]
      have := List.length_pos.mpr hl
      simp
      omega
    rw [beq_iff_eq]
    have hpath : pathSuffix nm = ⟨['.', c₁, c₂, c₃]⟩ := by
      unfold pathSuffix
      rw [if_pos hcond, htl]
      apply String.ext
      simp
    rw [hpath]
    apply String.ext
    have hdot : Char.toLower '.' = '.' := by decide
    have hmap : (strLower ⟨['.', c₁, c₂, c₃]⟩).data = ['.', c₁, c₂, c₃].map Char.toLower := rfl
    rw [hmap]
    simp [h1, h2, h3, hdot]

theorem entryIsPdf_ne_index (e : Entry) (h : entryIsPdf e = true) :
    (entryName e != "index.html") = true := by
  cases e with
  | file nm sz mt =>
    simp only [entryName, bne_iff_ne, ne_eq]
    intro hnm
    subst hnm
    simp only [entryIsPdf] at h
    exact absurd h (by decide)
  | dir nm ch => simp [entryIsPdf] at h

theorem gather_writeArtifact (entries : List Entry) (sz : ℕ) (mt : ℤ) :
    gather_pdfs (writeArtifact entries sz mt) = gather_pdfs entries := by
  unfold gather_pdfs writeArtifact
  congr 1
  rw [List.filter_append, List.filter_filter]
  have hidx : entryIsPdf (Entry.file "index.html" sz mt) = false := by
    simp only [entryIsPdf]
    decide
  have h2 : List.filter entryIsPdf [Entry.file "index.html" sz mt] = [] := by
    simp [hidx]
  rw [h2, List.append_nil]
  apply List.filter_congr
  intro e _
  cases he : entryIsPdf e with
  | false => simp [he]
  | true => simp [he, entryIsPdf_ne_index e he]

theorem countP_actions (l : List Action) :
    l.countP isMovedA + l.countP isSkipA + l.countP isErrA = l.length := by
  induction l with
  | nil => rfl
  | cons a l ih =>
    cases a <;> simp [List.countP_cons, isMovedA, isSkipA, isErrA] <;> omega

/-! ### The claims -/

/-- C1: `move(source_file, destination_directory)`: if no file exists at
`destination_directory / basename`, the file is relocated there and that
path is returned; otherwise it is relocated to `stem (n)ext` for the
smallest `n ≥ 1` at which no file yet exists, and that path is returned.
The relocation is a move, not a copy: the source entry is gone afterwards,
and the returned path is the one actually holding the content. -/
theorem safe_move_correct (nm : String) (c : ℕ) (srcDir destDir : List (String × ℕ)) :
    (nm ∉ destDir.map Prod.fst → (safe_move (nm, c) srcDir destDir).1 = nm) ∧
    (nm ∈ destDir.map Prod.fst →
      ∃ n, 1 ≤ n ∧
        (safe_move (nm, c) srcDir destDir).1 = candidate (pathStem nm) (pathSuffix nm) n ∧
        candidate (pathStem nm) (pathSuffix nm) n ∉ destDir.map Prod.fst ∧
        ∀ m, 1 ≤ m → m < n →
          candidate (pathStem nm) (pathSuffix nm) m ∈ destDir.map Prod.fst) ∧
    (safe_move (nm, c) srcDir destDir).1 ∉ destDir.map Prod.fst ∧
    ((safe_move (nm, c) srcDir destDir).1, c) ∈ (safe_move (nm, c) srcDir destDir).2.2 ∧
    (∀ e ∈ (safe_move (nm, c) srcDir destDir).2.1, e.1 ≠ nm) := by
  refine ⟨?_, ?_, ?_, ?_, ?_⟩
  · intro h
    simp only [safe_move]
    exact findTarget_of_not_mem _ _ h
  · intro h
    simp only [safe_move]
    exact findTarget_of_mem (pathStem nm) (pathSuffix nm) h
  · simp only [safe_move]
    exact findTarget_not_mem _ _ _ _
  · simp only [safe_move]
    simp
  · intro e he
    simp only [safe_move] at he
    have := (List.mem_filter.mp he).2
    simpa using this

theorem safe_move_correct_witness :
    ("a.pdf" ∈ ([("a.pdf", 3)] : List (String × ℕ)).map Prod.fst) ∧
    (∃ n, 1 ≤ n ∧
      (safe_move ("a.pdf", 7) [("a.pdf", 7)] [("a.pdf", 3)]).1 =
        candidate (pathStem "a.pdf") (pathSuffix "a.pdf") n ∧
      candidate (pathStem "a.pdf") (pathSuffix "a.pdf") n ∉
        ([("a.pdf", 3)] : List (String × ℕ)).map Prod.fst ∧
      ∀ m, 1 ≤ m → m < n →
        candidate (pathStem "a.pdf") (pathSuffix "a.pdf") m ∈
          ([("a.pdf", 3)] : List (String × ℕ)).map Prod.fst) ∧
    (safe_move ("b.pdf", 5) [("b.pdf", 5)] []).1 = "b.pdf" :=
  ⟨by decide,
    (safe_move_correct "a.pdf" 7 [("a.pdf", 7)] [("a.pdf", 3)]).2.1 (by decide),
    (safe_move_correct "b.pdf" 5 [("b.pdf", 5)] []).1 (by decide)⟩

/-- C2: no file already present in the destination is overwritten or
destroyed by a Mover call, and afterwards each destination name refers to
exactly one file (the name list stays duplicate-free). -/
theorem mover_no_overwrite (nm : String) (c : ℕ) (srcDir destDir : List (String × ℕ))
    (hnd : (destDir.map Prod.fst).Nodup) :
    (∀ e ∈ destDir, e ∈ (safe_move (nm, c) srcDir destDir).2.2) ∧
    ((safe_move (nm, c) srcDir destDir).2.2.map Prod.fst).Nodup := by
  constructor
  · intro e he
    simp only [safe_move]
    exact List.mem_append_left _ he
  · simp only [safe_move, List.map_append]
    rw [List.nodup_append]
    refine ⟨hnd, by simp, ?_⟩
    intro a ha hb
    simp only [List.map_cons, List.map_nil, List.mem_singleton] at hb
    subst hb
    exact findTarget_not_mem _ _ _ _ ha

theorem mover_no_overwrite_witness :
    (([("a.pdf", 3)] : List (String × ℕ)).map Prod.fst).Nodup ∧
    ("a.pdf", 3) ∈ (safe_move ("a.pdf", 7) [] [("a.pdf", 3)]).2.2 ∧
    ((safe_move ("a.pdf", 7) [] [("a.pdf", 3)]).2.2.map Prod.fst).Nodup :=
  ⟨by decide,
    (mover_no_overwrite "a.pdf" 7 [] [("a.pdf", 3)] (by decide)).1 ("a.pdf", 3) (by decide),
    (mover_no_overwrite "a.pdf" 7 [] [("a.pdf", 3)] (by decide)).2⟩

/-- C4: a candidate file whose exact name is already present in the
destination at the start of the run is skipped entirely: it stays in the
source, only a skip is logged for it, it is never moved, and the skip
counter matches the skips in the trace. -/
theorem mover_precheck_skip (fails : String → Bool) (srcFiles destFiles : List (String × ℕ))
    (p : String × ℕ) (hmem : p ∈ srcFiles) (hopt : is_optimised_pdf p.1 = true)
    (hdest : p.1 ∈ destFiles.map Prod.fst) :
    p ∈ (runMover fails srcFiles destFiles).src ∧
    Action.skippedA p.1 ∈ (runMover fails srcFiles destFiles).log ∧
    (∀ t, Action.movedA p.1 t ∉ (runMover fails srcFiles destFiles).log) ∧
    (runMover fails srcFiles destFiles).skipped =
      (runMover fails srcFiles destFiles).log.countP isSkipA := by
  obtain ⟨nm, c⟩ := p
  have hinit : strLower nm ∈ (initSt srcFiles destFiles).destNames := by
    rcases List.mem_map.mp hdest with ⟨e, he, heq⟩
    exact List.mem_map.mpr ⟨e, he, by rw [heq]⟩
  have hinv := foldl_skipfile_inv fails nm c (candidateList srcFiles)
    (initSt srcFiles destFiles) hinit hmem (by intro t ht; simp [initSt] at ht)
  have hcand : (nm, c) ∈ candidateList srcFiles := mem_candidateList hmem hopt
  rcases List.append_of_mem hcand with ⟨l₁, l₂, hsplit⟩
  have hmid := foldl_skipfile_inv fails nm c l₁
    (initSt srcFiles destFiles) hinit hmem (by intro t ht; simp [initSt] at ht)
  have hskip := procOne_skip fails (l₁.foldl (procOne fails) (initSt srcFiles destFiles))
    (nm, c) hmid.1
  have hlogmem : Action.skippedA nm ∈
      (procOne fails (l₁.foldl (procOne fails) (initSt srcFiles destFiles)) (nm, c)).log := by
    rw [hskip]; simp
  refine ⟨?_, ?_, ?_, ?_⟩
  · unfold runMover
    exact hinv.2.1
  · unfold runMover
    rw [hsplit, List.foldl_append, List.foldl_cons]
    exact foldl_log_mono fails l₂ _ _ hlogmem
  · intro t
    unfold runMover
    exact hinv.2.2 t
  · have hc := foldl_counts fails (candidateList srcFiles) (initSt srcFiles destFiles)
      (by simp [initSt])
    unfold runMover
    exact hc.2.1

theorem mover_precheck_skip_witness :
    (("a_optimised.pdf", 1) ∈
      (runMover (fun _ => false) [("a_optimised.pdf", 1)] [("a_optimised.pdf", 2)]).src) ∧
    Action.skippedA "a_optimised.pdf" ∈
      (runMover (fun _ => false) [("a_optimised.pdf", 1)] [("a_optimised.pdf", 2)]).log ∧
    Action.movedA "a_optimised.pdf" "a_optimised.pdf" ∉
      (runMover (fun _ => false) [("a_optimised.pdf", 1)] [("a_optimised.pdf", 2)]).log ∧
    (runMover (fun _ => false) [("a_optimised.pdf", 1)] [("a_optimised.pdf", 2)]).skipped =
      (runMover (fun _ => false) [("a_optimised.pdf", 1)] [("a_optimised.pdf", 2)]).log.countP
        isSkipA :=
  ⟨(mover_precheck_skip (fun _ => false) [("a_optimised.pdf", 1)] [("a_optimised.pdf", 2)]
      ("a_optimised.pdf", 1) (by decide) (by decide) (by decide)).1,
    (mover_precheck_skip (fun _ => false) [("a_optimised.pdf", 1)] [("a_optimised.pdf", 2)]
      ("a_optimised.pdf", 1) (by decide) (by decide) (by decide)).2.1,
    (mover_precheck_skip (fun _ => false) [("a_optimised.pdf", 1)] [("a_optimised.pdf", 2)]
      ("a_optimised.pdf", 1) (by decide) (by decide) (by decide)).2.2.1 "a_optimised.pdf",
    (mover_precheck_skip (fun _ => false) [("a_optimised.pdf", 1)] [("a_optimised.pdf", 2)]
      ("a_optimised.pdf", 1) (by decide) (by decide) (by decide)).2.2.2⟩

/-- C5 counterexample: a file named exactly `.pdf` ends with `.pdf`
case-insensitively, yet `gather_pdfs` does not retain it, because
`pathlib` gives a dot-leading name no suffix.  So the claim's
characterisation "retains exactly the files whose name ends with the
suffix case-insensitively" is false as stated. -/
theorem gather_pdfs_counterexample :
    gather_pdfs [Entry.file ".pdf" 5 0] = [] ∧
    List.isSuffixOf ".pdf".data (strLower ".pdf").data = true :=
  ⟨by decide, by decide⟩

/-- C5 (amended): `build_manifest` scans only the directory's immediate
children, retains exactly the regular files whose name ends with the suffix
case-insensitively with at least one character before the final dot (a file
named exactly `".pdf"` has no pathlib suffix and is excluded), and returns
them sorted by case-insensitive name ascending. -/
theorem gather_pdfs_spec (entries : List Entry) :
    (gather_pdfs entries).Perm (entries.filter entryIsPdf) ∧
    List.Sorted entryLe (gather_pdfs entries) ∧
    (∀ nm sz mt, entryIsPdf (Entry.file nm sz mt) = true ↔
      ∃ l c₁ c₂ c₃, nm.data = l ++ ['.', c₁, c₂, c₃] ∧ l ≠ [] ∧
        Char.toLower c₁ = 'p' ∧ Char.toLower c₂ = 'd' ∧ Char.toLower c₃ = 'f') ∧
    (∀ nm sub l₁ l₂, gather_pdfs (l₁ ++ Entry.dir nm sub :: l₂) = gather_pdfs (l₁ ++ l₂)) := by
  refine ⟨List.perm_insertionSort entryLe _, List.sorted_insertionSort entryLe _, ?_, ?_⟩
  · intro nm sz mt
    exact pathSuffix_pdf_iff nm
  · intro nm sub l₁ l₂
    unfold gather_pdfs
    congr 1
    have h : entryIsPdf (Entry.dir nm sub) = false := rfl
    simp [List.filter_append, List.filter_cons, h]

theorem gather_pdfs_spec_witness :
    (gather_pdfs [Entry.file "B.pdf" 1 0, Entry.file "a.PDF" 2 0]).Perm
      ([Entry.file "B.pdf" 1 0, Entry.file "a.PDF" 2 0].filter entryIsPdf) ∧
    (∃ l c₁ c₂ c₃, ("x.pdf" : String).data = l ++ ['.', c₁, c₂, c₃] ∧ l ≠ [] ∧
      Char.toLower c₁ = 'p' ∧ Char.toLower c₂ = 'd' ∧ Char.toLower c₃ = 'f') :=
  ⟨(gather_pdfs_spec [Entry.file "B.pdf" 1 0, Entry.file "a.PDF" 2 0]).1,
    ((gather_pdfs_spec []).2.2.1 "x.pdf" 1 0).mp (by decide)⟩

/-- C6: the manifest rows are a pure function of the scanned directory:
overwriting the previously generated artifact (`index.html`, the only
on-disk state a run leaves behind) does not change the rows of the next
run, and two runs over the same directory produce identical ordered rows. -/
theorem builder_pure (dateFmt : ℤ → String) (entries : List Entry) (sz : ℕ) (mt : ℤ) :
    buildRows dateFmt (writeArtifact entries sz mt) = buildRows dateFmt entries ∧
    buildRows dateFmt entries = buildRows dateFmt entries := by
  refine ⟨?_, rfl⟩
  unfold buildRows
  rw [gather_writeArtifact]

/-- C7: a failing move is recorded for that file only — the state is
otherwise untouched — the batch processes every candidate exactly once
regardless of errors, and the final summary counters are exactly the
moved/skipped/errored counts of the trace, partitioning the batch. -/
theorem mover_error_isolation (fails : String → Bool) (srcFiles destFiles : List (String × ℕ)) :
    (runMover fails srcFiles destFiles).log.length = (candidateList srcFiles).length ∧
    (runMover fails srcFiles destFiles).moved + (runMover fails srcFiles destFiles).skipped +
        (runMover fails srcFiles destFiles).errors = (candidateList srcFiles).length ∧
    (runMover fails srcFiles destFiles).moved =
      (runMover fails srcFiles destFiles).log.countP isMovedA ∧
    (runMover fails srcFiles destFiles).skipped =
      (runMover fails srcFiles destFiles).log.countP isSkipA ∧
    (runMover fails srcFiles destFiles).errors =
      (runMover fails srcFiles destFiles).log.countP isErrA ∧
    (∀ st q, strLower q.1 ∉ st.destNames → fails q.1 = true →
      procOne fails st q =
        { st with errors := st.errors + 1, log := st.log ++ [Action.erroredA q.1] }) := by
  have hc := foldl_counts fails (candidateList srcFiles) (initSt srcFiles destFiles)
    (by simp [initSt])
  have hl := foldl_log_len fails (candidateList srcFiles) (initSt srcFiles destFiles)
  refine ⟨?_, ?_, ?_, ?_, ?_, ?_⟩
  · unfold runMover
    rw [hl]
    simp [initSt]
  · unfold runMover
    rw [hc.1, hc.2.1, hc.2.2, countP_actions, hl]
    simp [initSt]
  · unfold runMover
    exact hc.1
  · unfold runMover
    exact hc.2.1
  · unfold runMover
    exact hc.2.2
  · intro st q h1 h2
    exact procOne_err fails st q h1 h2

theorem mover_error_isolation_witness :
    ((runMover (fun s => s == "b_optimised.pdf")
        [("a_optimised.pdf", 1), ("b_optimised.pdf", 2)] []).moved +
      (runMover (fun s => s == "b_optimised.pdf")
        [("a_optimised.pdf", 1), ("b_optimised.pdf", 2)] []).skipped +
      (runMover (fun s => s == "b_optimised.pdf")
        [("a_optimised.pdf", 1), ("b_optimised.pdf", 2)] []).errors =
      (candidateList [("a_optimised.pdf", 1), ("b_optimised.pdf", 2)]).length) ∧
    procOne (fun s => s == "b_optimised.pdf")
        (initSt [("a_optimised.pdf", 1), ("b_optimised.pdf", 2)] [])
        ("b_optimised.pdf", 2) =
      { initSt [("a_optimised.pdf", 1), ("b_optimised.pdf", 2)] [] with
          errors := (initSt [("a_optimised.pdf", 1), ("b_optimised.pdf", 2)] []).errors + 1,
          log := (initSt [("a_optimised.pdf", 1), ("b_optimised.pdf", 2)] []).log ++
            [Action.erroredA "b_optimised.pdf"] } :=
  ⟨(mover_error_isolation (fun s => s == "b_optimised.pdf")
      [("a_optimised.pdf", 1), ("b_optimised.pdf", 2)] []).2.1,
    (mover_error_isolation (fun s => s == "b_optimised.pdf")
      [("a_optimised.pdf", 1), ("b_optimised.pdf", 2)] []).2.2.2.2.2
      (initSt [("a_optimised.pdf", 1), ("b_optimised.pdf", 2)] [])
      ("b_optimised.pdf", 2) (by decide) (by decide)⟩

/-- C8: the batch mover's skip test is lowercase membership in the evolving
`dest_names` set (a step skips iff the lowercased candidate name is in the
set), every `MOVED` line puts the lowercased name actually used into the
set, and a later candidate in the same batch whose lowercased name equals
an already-moved file's used name is skipped, not disambiguated. -/
theorem mover_lowercase_skip (fails : String → Bool) :
    (∀ st p, (procOne fails st p).skipped = st.skipped + 1 ↔ strLower p.1 ∈ st.destNames) ∧
    (∀ st p t, (procOne fails st p).log = st.log ++ [Action.movedA p.1 t] →
      strLower t ∈ (procOne fails st p).destNames) ∧
    (∀ srcFiles destFiles l₁ q l₂, candidateList srcFiles = l₁ ++ q :: l₂ →
      (∃ a t, Action.movedA a t ∈ (l₁.foldl (procOne fails) (initSt srcFiles destFiles)).log ∧
        strLower q.1 = strLower t) →
      Action.skippedA q.1 ∈ (runMover fails srcFiles destFiles).log) := by
  refine ⟨?_, ?_, ?_⟩
  · intro st p
    constructor
    · intro h
      by_contra hmem
      by_cases hf : fails p.1 = true
      · rw [procOne_err fails st p hmem hf] at h
        simp at h
      · rw [procOne_move fails st p hmem (by simpa using hf)] at h
        simp at h
    · intro hmem
      rw [procOne_skip fails st p hmem]
  · intro st p t hlog
    by_cases h1 : strLower p.1 ∈ st.destNames
    · rw [procOne_skip fails st p h1] at hlog
      simp at hlog
    · by_cases hf : fails p.1 = true
      · rw [procOne_err fails st p h1 hf] at hlog
        simp at hlog
      · rw [procOne_move fails st p h1 (by simpa using hf)] at hlog ⊢
        simp only [List.append_cancel_left_eq, List.cons.injEq, and_true,
          Action.movedA.injEq] at hlog
        simp [hlog.2]
  · rintro srcFiles destFiles l₁ q l₂ hsplit ⟨a, t, hmem, heq⟩
    have hminv := foldl_moved_names fails l₁ (initSt srcFiles destFiles)
      (by intro a' t' h'; simp [initSt] at h') a t hmem
    have hqmem : strLower q.1 ∈
        (l₁.foldl (procOne fails) (initSt srcFiles destFiles)).destNames := by
      rw [heq]; exact hminv
    have hmem2 : Action.skippedA q.1 ∈
        (procOne fails (l₁.foldl (procOne fails) (initSt srcFiles destFiles)) q).log := by
      rw [procOne_skip fails _ q hqmem]
      simp
    unfold runMover
    rw [hsplit, List.foldl_append, List.foldl_cons]
    exact foldl_log_mono fails l₂ _ _ hmem2

theorem mover_lowercase_skip_witness :
    Action.skippedA "a_optimised.pdf" ∈
      (runMover (fun _ => false)
        [("A_optimised.pdf", 1), ("a_optimised.pdf", 2)] []).log :=
  (mover_lowercase_skip (fun _ => false)).2.2
    [("A_optimised.pdf", 1), ("a_optimised.pdf", 2)] [] [("A_optimised.pdf", 1)]
    ("a_optimised.pdf", 2) [] (by decide)
    ⟨"A_optimised.pdf", "A_optimised.pdf", by decide, by decide⟩

/-- C9: in the interactive mover's batch, a selected file that no longer
exists in the staging directory at move time is silently passed over: the
run is identical to one in which it was never selected — it is not moved,
not counted, and not recorded as an error. -/
theorem pick_missing_silently_skipped (fails : String → Bool)
    (srcFiles destFiles : List (String × ℕ)) (l₁ l₂ : List String) (f : String)
    (h : f ∉ srcFiles.map Prod.fst) :
    moveSelected fails (l₁ ++ f :: l₂) srcFiles destFiles =
      moveSelected fails (l₁ ++ l₂) srcFiles destFiles := by
  unfold moveSelected
  rw [List.foldl_append, List.foldl_append, List.foldl_cons]
  congr 1
  apply pickStep_noop
  intro e he hef
  exact h (List.mem_map.mpr ⟨e, foldl_pick_src_sub fails l₁ _ e he, hef⟩)

theorem pick_missing_silently_skipped_witness :
    moveSelected (fun _ => false) ["ghost.pdf"] [("a.pdf", 1)] [] =
      moveSelected (fun _ => false) [] [("a.pdf", 1)] [] :=
  pick_missing_silently_skipped (fun _ => false) [("a.pdf", 1)] [] [] [] "ghost.pdf"
    (by decide)

/-- C10: the disambiguation loop terminates: over any finite set of existing
destination names there is an `n ≥ 1` whose numbered candidate is absent,
and the name `safe_move` settles on is indeed absent from the destination,
making the search a total function of the destination state. -/
theorem disambiguation_terminates (destNames : List String) (base stem ext : String) :
    (∃ n, 1 ≤ n ∧ candidate stem ext n ∉ destNames) ∧
    findTarget destNames base stem ext ∉ destNames := by
  constructor
  · rcases exists_fresh_candidate destNames stem ext with ⟨j, _, h⟩
    exact ⟨1 + j, by omega, h⟩
  · exact findTarget_not_mem destNames base stem ext

end Pdf
